import Mathlib

/-!
Verification model of the `ai-price-tracker` browser extension.

The definitions in this file are shallow embeddings of the JavaScript
sources under `src/`:

* price-string numeric extraction and comparison
  (`BackgroundPriceTracker.isPriceLower`,
  `PriceDataManager._shouldAddPriceToHistory`, and the standalone
  `isPriceLower` of the earlier background-script revisions);
* the tracked-prices ledger operations of `PriceDataManager`
  (`addPriceToHistory`, `findOrCreateTrackedItem`, `removeTrackedItem`,
  validation, and the notification-history caps), together with
  `NotificationManager.storePriceDropNotification`;
* the scheduling logic of `PriceCheckScheduler`
  (`getLatestPricePerUrl`, `getUrlsNeedingCheck`).

Modelling conventions:

* A number produced by `parseFloat` on a price string is an exact
  decimal: it is represented as an unnormalized pair
  `(mantissa, scale) : ℕ × ℕ` standing for `mantissa / 10 ^ scale`, and
  `none : Option (ℕ × ℕ)` stands for `NaN`.  The rational value of a
  representation is `decVal`; comparisons are defined by
  cross-multiplication and proved to agree with the rational order.
  (The price strings handled by the extension carry only a handful of
  digits, so IEEE-754 rounding never distinguishes the values compared
  here; `parseFloat` is exact on them.)
* `Date` values are modelled by their millisecond timestamps (`Int`);
  `new Date().toISOString()` results are threaded through as opaque
  string parameters (`now`, `today`).
* JavaScript string truthiness is the test against `""`; a missing
  (`undefined`) string field is an `Option String` that is `none`.
-/

namespace PriceTracker

/-- Characters kept by the regex `[^\d,]` replacement in
`extractNumeric`: decimal digits and the comma. -/
def isNumChar (c : Char) : Bool := c.isDigit || c = ','

/-- Character class `[\d,.]` used by the earlier revisions'
`priceStr.match(/[\d,.]+/)`. -/
def isNumDotChar (c : Char) : Bool := c.isDigit || c = ',' || c = '.'

/-- Numeric value of a list of decimal digits (most significant first). -/
def digitsToNat : List Char → Nat
  | [] => 0
  | c :: cs => (c.toNat - 48) * 10 ^ cs.length + digitsToNat cs

/-- Rational value of an exact-decimal representation
`(mantissa, scale) ↦ mantissa / 10 ^ scale`. -/
def decVal (p : ℕ × ℕ) : ℚ := (p.1 : ℚ) / (10 : ℚ) ^ p.2

/-- Strict order on exact decimals, by cross-multiplication. -/
def decLt (a b : ℕ × ℕ) : Bool := a.1 * 10 ^ b.2 < b.1 * 10 ^ a.2

/-- Equality test on exact decimals, by cross-multiplication. -/
def decEqD (a b : ℕ × ℕ) : Bool := a.1 * 10 ^ b.2 = b.1 * 10 ^ a.2

/-- JavaScript `parseFloat` on a string made of digits, commas and dots:
parse the longest prefix of the shape `digits* ('.' digits*)?`; the result
is `NaN` (modelled `none`) when that prefix contains no digit.  Parsing
stops at the first character that cannot extend the number (for these
inputs: a comma, or a second dot). -/
def parseFloatDec (s : List Char) : Option (ℕ × ℕ) :=
  let intPart := s.takeWhile (·.isDigit)
  let rest := s.drop intPart.length
  match rest with
  | '.' :: rest2 =>
      let fracPart := rest2.takeWhile (·.isDigit)
      if intPart.isEmpty && fracPart.isEmpty then none
      else some (digitsToNat intPart * 10 ^ fracPart.length + digitsToNat fracPart,
                 fracPart.length)
  | _ => if intPart.isEmpty then none else some (digitsToNat intPart, 0)

/-- JavaScript `String.prototype.replace(',', '.')`: replace only the first comma. -/
def replaceFirstComma : List Char → List Char
  | [] => []
  | c :: cs => if c = ',' then '.' :: cs else c :: replaceFirstComma cs

/-- The `extractNumeric` helper shared by
`BackgroundPriceTracker.isPriceLower` and
`PriceDataManager._shouldAddPriceToHistory`:

```js
if (!priceStr) return 0;
const numericPart = priceStr.replace(/[^\d,]/g, '');
if (numericPart) return parseFloat(numericPart.replace(',', '.'));
return 0;
```

`none` is the `NaN` result of `parseFloat` (reachable only when the kept
characters are commas with no digit before the second comma). -/
def extractNumeric (s : String) : Option (ℕ × ℕ) :=
  if s = "" then some (0, 0)
  else
    let numericPart := s.data.filter isNumChar
    if numericPart.isEmpty then some (0, 0)
    else parseFloatDec (replaceFirstComma numericPart)

/-- Rational numeric value a price string is given by `extractNumeric`
(`none` = `NaN`). -/
def extractNumericQ (s : String) : Option ℚ := (extractNumeric s).map decVal

/-- JavaScript `<` on numbers: false whenever either side is `NaN`. -/
def jsLt (a b : Option (ℕ × ℕ)) : Bool :=
  match a, b with
  | some x, some y => decLt x y
  | _, _ => false

/-- JavaScript `!==` on numbers: `NaN !== x` is true for every `x`,
including `x = NaN`. -/
def jsNeq (a b : Option (ℕ × ℕ)) : Bool :=
  match a, b with
  | some x, some y => !decEqD x y
  | _, _ => true

/-- Model of `BackgroundPriceTracker.isPriceLower(currentPrice, oldPrice)`
(src/src/shared/js/BackgroundPriceTracker.js, lines 422-443): extract
numeric values from both price strings and return whether the current
one is strictly lower. -/
def isPriceLower (currentPrice oldPrice : String) : Bool :=
  jsLt (extractNumeric currentPrice) (extractNumeric oldPrice)

/-- Model of `PriceDataManager._shouldAddPriceToHistory(lastPrice, newPrice)`
(src/src/shared/js/PriceDataManager.js, lines 321-351).  `lastPrice` is
`lastHistoryEntry?.price`, hence `none` when the history is empty; a
falsy (empty) last price also short-circuits to `true`. -/
def shouldAddPriceToHistory (lastPrice : Option String) (newPrice : String) : Bool :=
  match lastPrice with
  | none => true
  | some l =>
      if l = "" then true
      else jsNeq (extractNumeric l) (extractNumeric newPrice)

/-- The match `matches = priceStr.match(/[\d,.]+/)`: the first maximal run of
digits, commas and dots, or `[]` when there is no match. -/
def firstMatchRun (p : Char → Bool) : List Char → List Char
  | [] => []
  | c :: cs => if p c then c :: cs.takeWhile p else firstMatchRun p cs

/-- The `extractNumeric` helper of the standalone `isPriceLower` in the
earlier background-script revisions (src/unnamed/part_004 lines 598-616,
src/unnamed/part_005 lines 420-438):

```js
const matches = priceStr.match(/[\d,.]+/);
if (matches && matches.length > 0) {
  return parseFloat(matches[0].replace(/,/g, '.').replace(/[^\d.]/g, ''));
}
return 0;
```

All commas of the match are turned into dots; the second replace keeps
digits and dots (a no-op on a match, kept here for fidelity). -/
def extractNumericOld (s : String) : Option (ℕ × ℕ) :=
  match firstMatchRun isNumDotChar s.data with
  | [] => some (0, 0)
  | run =>
      parseFloatDec (((run.map (fun c => if c = ',' then '.' else c))).filter
        (fun c => c.isDigit || c = '.'))

/-- The standalone `isPriceLower(currentPrice, oldPrice)` of the earlier
background-script revisions. -/
def isPriceLowerOld (currentPrice oldPrice : String) : Bool :=
  jsLt (extractNumericOld currentPrice) (extractNumericOld oldPrice)

/-! ### Tracked-prices data model (`PriceDataManager`)

The items written by the extension itself have string-typed fields
throughout (`createTrackedPriceItem` / `createPriceHistoryEntry` build
them from string inputs, and the OpenAI extraction yields strings), so
this layer models them with string fields.  Arbitrary stored JSON is
handled by the `JS` layer further below. -/

/-- JavaScript `a || b` on strings: `""` is falsy. -/
def jsOrS (a b : String) : String := if a = "" then b else a

/-- A price-history entry `{price, date, timestamp}`. -/
structure HistoryEntry where
  price : String
  date : String
  timestamp : String
deriving DecidableEq, Repr

/-- A tracked-prices ledger item
`{url, name, imageUrl, lastChecked, history}`. -/
structure Item where
  url : String
  name : String
  imageUrl : String
  lastChecked : String
  history : List HistoryEntry
deriving DecidableEq, Repr

/-- Model of `PriceDataManager._validateTrackedPriceItem` restricted to
string-typed items (src/src/shared/js/PriceDataManager.js, lines 25-57):
throw (`none`) when the url is falsy, otherwise normalize every falsy
field to its default.  `now` and `today` stand for the
`new Date().toISOString()` values taken inside the function. -/
def validateItemS (now today : String) (it : Item) : Option Item :=
  if it.url = "" then none
  else some
    { url := it.url
      name := jsOrS it.name "Unknown Product"
      imageUrl := jsOrS it.imageUrl ""
      lastChecked := jsOrS it.lastChecked now
      history := it.history.map (fun e =>
        { price := jsOrS e.price "0.00"
          date := jsOrS e.date today
          timestamp := jsOrS e.timestamp now }) }

/-- Model of `PriceDataManager._validateTrackedPricesArray` on string-typed items
(lines 64-78): items whose validation throws are dropped. -/
def validateArrayS (now today : String) (tp : List Item) : List Item :=
  (tp.map (validateItemS now today)).reduceOption

/-- Model of `PriceDataManager.createPriceHistoryEntry(price)` (lines 111-117). -/
def createPriceHistoryEntry (price today now : String) : HistoryEntry :=
  { price := jsOrS price "0.00", date := today, timestamp := now }

/-- The history-update step of `PriceDataManager.addPriceToHistory`
(lines 291-304): read the last entry's price, append a fresh entry when
`_shouldAddPriceToHistory` says so, then drop the oldest entry if the
history now exceeds 50 entries. -/
def pushPriceToHistory (h : List HistoryEntry) (price now today : String) :
    List HistoryEntry :=
  if shouldAddPriceToHistory (h.getLast?.map (·.price)) price then
    let h2 := h ++ [createPriceHistoryEntry price today now]
    if h2.length > 50 then h2.tail else h2
  else h

/-- In-place mutation of the first list element with the given url, as
done through the alias returned by `trackedPrices.find(...)`. -/
def updateFirst (f : Item → Item) (url : String) : List Item → List Item
  | [] => []
  | x :: xs => if x.url = url then f x :: xs else x :: updateFirst f url xs

/-- The field updates applied to an existing tracked item by
`addPriceToHistory` (lines 283-288) followed by its history update. -/
def updateExistingItem (productName imageUrl price now today : String) (it : Item) : Item :=
  { it with
    name := jsOrS productName it.name
    lastChecked := now
    imageUrl := if imageUrl = "" then it.imageUrl else imageUrl
    history := pushPriceToHistory it.history price now today }

/-- Model of `PriceDataManager.addPriceToHistory(url, productName, price, imageUrl)`
(lines 273-312), acting on the already-validated list returned by
`getTrackedPrices`.  When no item with the url exists,
`createTrackedPriceItem` either throws on a falsy url (the catch leaves
storage unchanged) or builds a fresh item whose history then receives
the price; the final `saveTrackedPrices` re-validates the array. -/
def addPriceToHistory (tp : List Item)
    (url productName price imageUrl now today : String) : List Item :=
  match tp.find? (fun it => it.url = url) with
  | some _ =>
      validateArrayS now today
        (updateFirst (updateExistingItem productName imageUrl price now today) url tp)
  | none =>
      if url = "" then tp
      else
        validateArrayS now today (tp ++
          [{ url := url
             name := jsOrS productName "Unknown Product"
             imageUrl := jsOrS imageUrl ""
             lastChecked := now
             history := pushPriceToHistory [] price now today }])

/-- The field updates applied to an existing item by
`findOrCreateTrackedItem` (lines 249-255). -/
def touchExistingItem (productName imageUrl now : String) (it : Item) : Item :=
  { it with
    name := jsOrS productName it.name
    lastChecked := now
    imageUrl := if imageUrl = "" then it.imageUrl else imageUrl }

/-- Model of `PriceDataManager.findOrCreateTrackedItem(url, productName, imageUrl)`
(lines 232-263), acting on the validated list; the result is the list
persisted by `saveTrackedPrices` (which validates again). -/
def findOrCreateTrackedItem (tp : List Item)
    (url productName imageUrl now today : String) : List Item :=
  match tp.find? (fun it => it.url = url) with
  | some _ =>
      validateArrayS now today (updateFirst (touchExistingItem productName imageUrl now) url tp)
  | none =>
      validateArrayS now today (tp ++
        [{ url := url, name := productName, imageUrl := imageUrl
           lastChecked := now, history := [] }])

/-- Model of `PriceDataManager.removeTrackedItem(url)` (lines 494-510): filter the
url out of the tracked-prices list, `delete` its key from the
tracked-items map, and persist through `saveAllTrackedData`, which
re-validates the prices list (lines 211-223).  The tracked-items map is
an association list with string keys and opaque values. -/
def removeTrackedItem (tp : List Item) (items : List (String × α))
    (url now today : String) : List Item × List (String × α) :=
  (validateArrayS now today (tp.filter (fun it => it.url ≠ url)),
   items.filter (fun p => p.1 ≠ url))

/-! ### Notification history caps -/

/-- A record of `priceDropHistory` as written by
`NotificationManager.storePriceDropNotification`. -/
structure NotifRecord where
  url : String
  productName : String
  oldPrice : String
  newPrice : String
  timestamp : String
deriving DecidableEq, Repr

/-- A record of `priceDropHistory` as written by
`PriceDataManager.addNotificationToHistory` (includes image and date). -/
structure DropRecord where
  url : String
  productName : String
  oldPrice : String
  newPrice : String
  imageUrl : String
  timestamp : String
  date : String
deriving DecidableEq, Repr

/-- Model of `NotificationManager.storePriceDropNotification(url, productName,
oldPrice, newPrice)` (src/src/shared/js/NotificationManager.js, lines
54-80): append the record, then drop the oldest entry when the list
exceeds 50. -/
def storePriceDropNotification (h : List NotifRecord)
    (url productName oldPrice newPrice now : String) : List NotifRecord :=
  let h2 := h ++ [{ url := url, productName := productName, oldPrice := oldPrice
                    newPrice := newPrice, timestamp := now }]
  if h2.length > 50 then h2.tail else h2

/-- Model of `PriceDataManager.addNotificationToHistory(url, productName,
oldPrice, newPrice, imageUrl)` (src/src/shared/js/PriceDataManager.js,
lines 391-416): append the record, then drop the oldest entry when the
list exceeds 100. -/
def addNotificationToHistory (h : List DropRecord)
    (url productName oldPrice newPrice imageUrl now today : String) : List DropRecord :=
  let h2 := h ++ [{ url := url, productName := productName, oldPrice := oldPrice
                    newPrice := newPrice, imageUrl := imageUrl
                    timestamp := now, date := today }]
  if h2.length > 100 then h2.tail else h2

/-! ### Per-URL check step of `BackgroundPriceTracker.checkAllPrices` -/

/-- The product data extracted by the OpenAI call. -/
structure ExtractedData where
  name : String
  price : String
deriving DecidableEq, Repr

/-- The notification decision taken for one URL inside the
`checkAllPrices` loop (src/src/shared/js/BackgroundPriceTracker.js,
lines 376-401): skip when the extraction returned no usable data
(`!currentData || !currentData.price`), otherwise send and record a
price-drop notification exactly when `isPriceLower` holds for the
fetched price versus the latest stored price.  The result is whether a
notification is sent and recorded for this URL. -/
def checkPriceStep (latestPrice : String) (currentData : Option ExtractedData) : Bool :=
  match currentData with
  | none => false
  | some d => if d.price = "" then false else isPriceLower d.price latestPrice

/-! ### Scheduler (`PriceCheckScheduler`)

`PriceCheckScheduler.getLatestPricePerUrl` reads `entry.price`,
`entry.date` and `entry.lastChecked` directly off the elements of the
`trackedPrices` array (the legacy flat format), so its entries are
modelled separately from `Item`.  A falsy/missing `price` or `url` is
the empty string; `date` is the parsed millisecond timestamp of
`new Date(entry.date)`; `lastChecked` is `none` when the field is
falsy/missing, otherwise the parsed millisecond timestamp. -/

/-- A flat tracked-prices entry as consumed by the scheduler. -/
structure SchedEntry where
  url : String
  price : String
  date : Int
  lastChecked : Option Int
deriving DecidableEq, Repr

/-- Replace the value stored under an existing key of a JavaScript
object (the key keeps its position in insertion order). -/
def replaceKeyFirst (k : String) (v : SchedEntry) :
    List (String × SchedEntry) → List (String × SchedEntry)
  | [] => []
  | p :: rest => if p.1 = k then (k, v) :: rest else p :: replaceKeyFirst k v rest

/-- One iteration of the `PriceCheckScheduler.getLatestPricePerUrl` loop
(src/src/shared/js/PriceCheckScheduler.js, lines 286-293): skip entries
with a falsy url or price; otherwise record the entry under its url when
the key is new or the entry's date is strictly later than the stored
one. -/
def stepLatest (m : List (String × SchedEntry)) (e : SchedEntry) :
    List (String × SchedEntry) :=
  if e.url = "" || e.price = "" then m
  else
    match m.find? (fun p => p.1 = e.url) with
    | none => m ++ [(e.url, e)]
    | some p => if p.2.date < e.date then replaceKeyFirst e.url e m else m

/-- Model of `PriceCheckScheduler.getLatestPricePerUrl(trackedPrices)` (lines
282-296); the result object is an insertion-ordered association list. -/
def getLatestPricePerUrl (tp : List SchedEntry) : List (String × SchedEntry) :=
  tp.foldl stepLatest []

/-- The per-entry test of `PriceCheckScheduler.getUrlsNeedingCheck`
(lines 261-273): an entry needs a check when it has no `lastChecked`
timestamp, or `(now - lastChecked) / (1000*60*60) >= hoursThreshold`. -/
def entryNeedsCheck (now : Int) (hoursThreshold : ℚ) (e : SchedEntry) : Bool :=
  match e.lastChecked with
  | none => true
  | some lc => hoursThreshold ≤ ((now : ℚ) - (lc : ℚ)) / (1000 * 60 * 60)

/-- Model of `PriceCheckScheduler.getUrlsNeedingCheck(trackedPrices,
hoursThreshold)` (lines 255-277). -/
def getUrlsNeedingCheck (tp : List SchedEntry) (hoursThreshold : ℚ) (now : Int) :
    List String :=
  (getLatestPricePerUrl tp).filterMap
    (fun p => if entryNeedsCheck now hoursThreshold p.2 then some p.1 else none)

/-- The most recent valid entry the scheduler associates with a url. -/
def lookupLatest (tp : List SchedEntry) (u : String) : Option SchedEntry :=
  ((getLatestPricePerUrl tp).find? (fun p => p.1 = u)).map Prod.snd

/-! ### Raw stored values and `getTrackedPrices` validation

`browser.storage.local` can hold arbitrary JSON-like data; this layer
models such values and the full validation pipeline of
`PriceDataManager.getTrackedPrices`. -/

/-- A JSON-like JavaScript value. -/
inductive JSVal where
  | undefined
  | null
  | bool (b : Bool)
  | num (q : ℚ)
  | str (s : String)
  | arr (xs : List JSVal)
  | obj (fields : List (String × JSVal))

/-- JavaScript truthiness (`NaN` does not occur in this model). -/
def jsTruthy : JSVal → Bool
  | .undefined => false
  | .null => false
  | .bool b => b
  | .num q => q != 0
  | .str s => s ≠ ""
  | .arr _ => true
  | .obj _ => true

/-- Property access `v[key]`: `undefined` unless `v` is an object with
the named field (index properties of arrays are not modelled; the
validation code never reads them). -/
def getField (v : JSVal) (key : String) : JSVal :=
  match v with
  | .obj fields => ((fields.find? (fun p => p.1 = key)).map Prod.snd).getD .undefined
  | _ => .undefined

/-- The test `typeof v === 'object'` (true for `null`, arrays and objects). -/
def isObjectType : JSVal → Bool
  | .null => true
  | .arr _ => true
  | .obj _ => true
  | _ => false

/-- The test `typeof v === 'string'`. -/
def isStringType : JSVal → Bool
  | .str _ => true
  | _ => false

/-- The string held by a string value (and `""` otherwise). -/
def strVal : JSVal → String
  | .str s => s
  | _ => ""

/-- JavaScript `a || b` on arbitrary values. -/
def jsOr (a b : JSVal) : JSVal := if jsTruthy a then a else b

/-- A normalized history entry as built by `_validateTrackedPriceItem`:
all three fields are present (falsy ones replaced by defaults). -/
structure NormEntry where
  price : JSVal
  date : JSVal
  timestamp : JSVal

/-- A normalized tracked item as built by `_validateTrackedPriceItem`:
the url is a non-empty string, the other fields are present, and the
history is an array of normalized entries. -/
structure NormItem where
  url : String
  name : JSVal
  imageUrl : JSVal
  lastChecked : JSVal
  history : List NormEntry

/-- The history-entry normalization inside
`PriceDataManager._validateTrackedPriceItem` (lines 44-54): throw
(`none`) on a falsy or non-object entry, otherwise default each falsy
field. -/
def validateHistoryEntry (now today : String) (e : JSVal) : Option NormEntry :=
  if !(jsTruthy e && isObjectType e) then none
  else some
    { price := jsOr (getField e "price") (.str "0.00")
      date := jsOr (getField e "date") (.str today)
      timestamp := jsOr (getField e "timestamp") (.str now) }

/-- The `history.map(...)` of `_validateTrackedPriceItem`: the whole
item validation throws as soon as one entry is invalid. -/
def validateEntries (now today : String) : List JSVal → Option (List NormEntry)
  | [] => some []
  | e :: es =>
      match validateHistoryEntry now today e, validateEntries now today es with
      | some e2, some es2 => some (e2 :: es2)
      | _, _ => none

/-- Model of `PriceDataManager._validateTrackedPriceItem(item)` (lines 25-57) on
an arbitrary stored value: throw (`none`) when the item is not a truthy
object or its `url` is not a truthy string; throw when any history
entry is not a truthy object; otherwise produce the normalized item. -/
def rawHistoryOf (item : JSVal) : List JSVal :=
  match getField item "history" with
  | .arr xs => xs
  | _ => []

def validateTrackedPriceItem (now today : String) (item : JSVal) : Option NormItem :=
  if !(jsTruthy item && isObjectType item) then none
  else if !(jsTruthy (getField item "url") && isStringType (getField item "url")) then none
  else
    match validateEntries now today (rawHistoryOf item) with
    | none => none
    | some entries =>
        some
          { url := strVal (getField item "url")
            name := jsOr (getField item "name") (.str "Unknown Product")
            imageUrl := jsOr (getField item "imageUrl") (.str "")
            lastChecked := jsOr (getField item "lastChecked") (.str now)
            history := entries }

/-- Model of `PriceDataManager._validateTrackedPricesArray(trackedPrices)` (lines
64-78): a non-array yields `[]`; items whose validation throws are
logged and dropped, the rest are kept in order. -/
def validateTrackedPricesArray (now today : String) (v : JSVal) : List NormItem :=
  match v with
  | .arr xs => (xs.map (validateTrackedPriceItem now today)).reduceOption
  | _ => []

/-- Model of `PriceDataManager.getTrackedPrices()` (lines 123-132) as a function
of the raw stored value: `result[key] || []` defaults a falsy stored
value to the empty array, and the result is the validated array.  (A
storage-layer exception is caught and also yields `[]`; that path is
outside this model.) -/
def getTrackedPrices (stored : JSVal) (now today : String) : List NormItem :=
  validateTrackedPricesArray now today (jsOr stored (.arr []))

/-- The comparison `decLt` agrees with the strict order of the rational values. -/
theorem decLt_iff (a b : ℕ × ℕ) : decLt a b = true ↔ decVal a < decVal b := by
  unfold decLt decVal
  rw [div_lt_div_iff₀ (by positivity) (by positivity)]
  rw [decide_eq_true_iff]
  constructor
  · intro h
    calc ((a.1 : ℚ)) * (10 : ℚ) ^ b.2 = ((a.1 * 10 ^ b.2 : ℕ) : ℚ) := by push_cast; ring
    _ < ((b.1 * 10 ^ a.2 : ℕ) : ℚ) := by exact_mod_cast h
    _ = (b.1 : ℚ) * (10 : ℚ) ^ a.2 := by push_cast; ring
  · intro h
    have h2 : ((a.1 * 10 ^ b.2 : ℕ) : ℚ) < ((b.1 * 10 ^ a.2 : ℕ) : ℚ) := by
      push_cast
      linarith
    exact_mod_cast h2

/-- The test `decEqD` agrees with equality of the rational values. -/
theorem decEqD_iff (a b : ℕ × ℕ) : decEqD a b = true ↔ decVal a = decVal b := by
  unfold decEqD decVal
  rw [div_eq_div_iff (by positivity) (by positivity)]
  rw [decide_eq_true_iff]
  constructor
  · intro h
    calc ((a.1 : ℚ)) * (10 : ℚ) ^ b.2 = ((a.1 * 10 ^ b.2 : ℕ) : ℚ) := by push_cast; ring
    _ = ((b.1 * 10 ^ a.2 : ℕ) : ℚ) := by exact_mod_cast h
    _ = (b.1 : ℚ) * (10 : ℚ) ^ a.2 := by push_cast; ring
  · intro h
    have h2 : ((a.1 * 10 ^ b.2 : ℕ) : ℚ) = ((b.1 * 10 ^ a.2 : ℕ) : ℚ) := by
      push_cast
      linarith
    exact_mod_cast h2

/-! ### Helper lemmas -/

theorem tail_append_singleton {α : Type u} (h : List α) (a : α) (hne : h ≠ []) :
    (h ++ [a]).tail = h.tail ++ [a] := by
  cases h with
  | nil => exact absurd rfl hne
  | cons x xs => simp

theorem reduceOption_map_of_some {α : Type u} {f : α → Option α} {l : List α}
    (h : ∀ x ∈ l, f x = some x) : (l.map f).reduceOption = l := by
  induction l with
  | nil => rfl
  | cons x xs ih =>
      simp only [List.map_cons, List.reduceOption_cons_of_some, h x (by simp)]
      · rw [ih (fun y hy => h y (by simp [hy]))]

/-- A tracked item all of whose required fields are non-empty; such items
are fixed points of `validateItemS`. -/
def WellFormedItem (it : Item) : Prop :=
  it.url ≠ "" ∧ it.name ≠ "" ∧ it.lastChecked ≠ "" ∧
  ∀ e ∈ it.history, e.price ≠ "" ∧ e.date ≠ "" ∧ e.timestamp ≠ ""

instance (it : Item) : Decidable (WellFormedItem it) := by
  unfold WellFormedItem; infer_instance

theorem map_norm_entries {now today : String} {l : List HistoryEntry}
    (h : ∀ e ∈ l, e.price ≠ "" ∧ e.date ≠ "" ∧ e.timestamp ≠ "") :
    l.map (fun e =>
      ({ price := jsOrS e.price "0.00", date := jsOrS e.date today,
         timestamp := jsOrS e.timestamp now } : HistoryEntry)) = l := by
  induction l with
  | nil => rfl
  | cons e es ih =>
      obtain ⟨hp, hd, ht⟩ := h e (List.mem_cons_self e es)
      rw [List.map_cons, ih (fun x hx => h x (List.mem_cons_of_mem _ hx))]
      congr 1
      simp [jsOrS, hp, hd, ht]

theorem validateItemS_self {now today : String} {it : Item}
    (h : WellFormedItem it) : validateItemS now today it = some it := by
  obtain ⟨h1, h2, h3, h4⟩ := h
  have hname : jsOrS it.name "Unknown Product" = it.name := by simp [jsOrS, h2]
  have himg : jsOrS it.imageUrl "" = it.imageUrl := by
    unfold jsOrS; split <;> simp_all
  have hlc : jsOrS it.lastChecked now = it.lastChecked := by simp [jsOrS, h3]
  unfold validateItemS
  rw [if_neg h1, hname, himg, hlc, map_norm_entries h4]

theorem validateArrayS_id {now today : String} {l : List Item}
    (h : ∀ it ∈ l, WellFormedItem it) : validateArrayS now today l = l :=
  reduceOption_map_of_some (fun it hit => validateItemS_self (h it hit))

theorem updateFirst_mem {f : Item → Item} {url : String} {tp : List Item} {x : Item}
    (hx : x ∈ updateFirst f url tp) :
    x ∈ tp ∨ ∃ y ∈ tp, y.url = url ∧ x = f y := by
  induction tp with
  | nil => simp [updateFirst] at hx
  | cons z zs ih =>
      by_cases hz : z.url = url
      · simp only [updateFirst, if_pos hz, List.mem_cons] at hx
        rcases hx with h | h
        · exact Or.inr ⟨z, List.mem_cons_self z zs, hz, h⟩
        · exact Or.inl (List.mem_cons_of_mem _ h)
      · simp only [updateFirst, if_neg hz, List.mem_cons] at hx
        rcases hx with h | h
        · exact Or.inl (h ▸ List.mem_cons_self z zs)
        · rcases ih h with h2 | ⟨y, hy, hyu, hxy⟩
          · exact Or.inl (List.mem_cons_of_mem _ h2)
          · exact Or.inr ⟨y, List.mem_cons_of_mem _ hy, hyu, hxy⟩

theorem pushPrice_mem {h : List HistoryEntry} {price now today : String} {e : HistoryEntry}
    (he : e ∈ pushPriceToHistory h price now today) :
    e ∈ h ∨ e = createPriceHistoryEntry price today now := by
  simp only [pushPriceToHistory] at he
  split at he
  · split at he
    · have := List.Sublist.mem he (List.tail_sublist _)
      simpa using this
    · simpa using he
  · exact Or.inl he

/-- Case analysis of the history-update step for histories within the
cap: the history is unchanged, extended, or shifted-and-extended. -/
theorem pushPrice_shape (h : List HistoryEntry) (price now today : String)
    (hlen : h.length ≤ 50) :
    (pushPriceToHistory h price now today).length ≤ 50 ∧
    (pushPriceToHistory h price now today = h ∨
     pushPriceToHistory h price now today = h ++ [createPriceHistoryEntry price today now] ∨
     (h.length = 50 ∧
      pushPriceToHistory h price now today =
        h.tail ++ [createPriceHistoryEntry price today now])) := by
  unfold pushPriceToHistory
  split
  · by_cases hc : h.length = 50
    · have hgt : (h ++ [createPriceHistoryEntry price today now]).length > 50 := by
        simp [hc]
      rw [if_pos hgt]
      have hne : h ≠ [] := by
        intro hnil; rw [hnil] at hc; simp at hc
      rw [tail_append_singleton _ _ hne]
      refine ⟨?_, Or.inr (Or.inr ⟨hc, rfl⟩)⟩
      have : h.tail.length = 49 := by
        rw [List.length_tail, hc]
      simp [this]
    · have hlt : h.length < 50 := lt_of_le_of_ne hlen hc
      have hngt : ¬(h ++ [createPriceHistoryEntry price today now]).length > 50 := by
        simp; omega
      rw [if_neg hngt]
      refine ⟨?_, Or.inr (Or.inl rfl)⟩
      simp; omega
  · exact ⟨hlen, Or.inl rfl⟩

theorem wf_updateExisting {productName imageUrl price now today : String} {it : Item}
    (h : WellFormedItem it) (hnow : now ≠ "") (htoday : today ≠ "") :
    WellFormedItem (updateExistingItem productName imageUrl price now today it) := by
  obtain ⟨h1, h2, h3, h4⟩ := h
  refine ⟨h1, ?_, hnow, ?_⟩
  · show jsOrS productName it.name ≠ ""
    unfold jsOrS
    split
    · exact h2
    · assumption
  · intro e he
    rcases pushPrice_mem he with hmem | hnew
    · exact h4 e hmem
    · subst hnew
      refine ⟨?_, htoday, hnow⟩
      show jsOrS price "0.00" ≠ ""
      unfold jsOrS
      split
      · simp
      · assumption

theorem wf_touchExisting {productName imageUrl now : String} {it : Item}
    (h : WellFormedItem it) (hnow : now ≠ "") :
    WellFormedItem (touchExistingItem productName imageUrl now it) := by
  obtain ⟨h1, h2, h3, h4⟩ := h
  refine ⟨h1, ?_, hnow, h4⟩
  show jsOrS productName it.name ≠ ""
  unfold jsOrS
  split
  · exact h2
  · assumption

theorem jsOrS_ne_empty {a b : String} (hb : b ≠ "") : jsOrS a b ≠ "" := by
  unfold jsOrS
  split
  · exact hb
  · assumption

/-! ### Claims -/

/-- Claim C5: each operation that appends a price-drop notification
record keeps the stored list within its cap
(`NotificationManager.storePriceDropNotification` caps at 50,
`PriceDataManager.addNotificationToHistory` at 100): starting from a
list within the cap, the result is within the cap; below the cap the
record is appended, and at the cap the oldest (first) entry is evicted
while the remaining entries are preserved in order. -/
theorem claim_C5 (hn : List NotifRecord) (hd : List DropRecord)
    (url productName oldPrice newPrice imageUrl now today : String) :
    (hn.length ≤ 50 →
      (storePriceDropNotification hn url productName oldPrice newPrice now).length ≤ 50 ∧
      (hn.length < 50 →
        storePriceDropNotification hn url productName oldPrice newPrice now =
          hn ++ [⟨url, productName, oldPrice, newPrice, now⟩]) ∧
      (hn.length = 50 →
        storePriceDropNotification hn url productName oldPrice newPrice now =
          hn.tail ++ [⟨url, productName, oldPrice, newPrice, now⟩])) ∧
    (hd.length ≤ 100 →
      (addNotificationToHistory hd url productName oldPrice newPrice imageUrl now today).length
        ≤ 100 ∧
      (hd.length < 100 →
        addNotificationToHistory hd url productName oldPrice newPrice imageUrl now today =
          hd ++ [⟨url, productName, oldPrice, newPrice, imageUrl, now, today⟩]) ∧
      (hd.length = 100 →
        addNotificationToHistory hd url productName oldPrice newPrice imageUrl now today =
          hd.tail ++ [⟨url, productName, oldPrice, newPrice, imageUrl, now, today⟩])) := by
  constructor
  · intro hle
    simp only [storePriceDropNotification]
    split
    · next hgt =>
        have hceq : hn.length = 50 := by
          simp only [List.length_append, List.length_singleton] at hgt
          omega
        have hne : hn ≠ [] := by
          intro h0
          rw [h0] at hceq
          simp at hceq
        rw [tail_append_singleton _ _ hne]
        refine ⟨?_, fun hlt => by omega, fun _ => rfl⟩
        have : hn.tail.length = 49 := by
          rw [List.length_tail, hceq]
        simp [this]
    · next hngt =>
        have : hn.length < 50 := by
          simp only [List.length_append, List.length_singleton] at hngt
          omega
        refine ⟨by simp; omega, fun _ => rfl, fun hc => by omega⟩
  · intro hle
    simp only [addNotificationToHistory]
    split
    · next hgt =>
        have hceq : hd.length = 100 := by
          simp only [List.length_append, List.length_singleton] at hgt
          omega
        have hne : hd ≠ [] := by
          intro h0
          rw [h0] at hceq
          simp at hceq
        rw [tail_append_singleton _ _ hne]
        refine ⟨?_, fun hlt => by omega, fun _ => rfl⟩
        have : hd.tail.length = 99 := by
          rw [List.length_tail, hceq]
        simp [this]
    · next hngt =>
        have : hd.length < 100 := by
          simp only [List.length_append, List.length_singleton] at hngt
          omega
        refine ⟨by simp; omega, fun _ => rfl, fun hc => by omega⟩

theorem claim_C5_witness :
    storePriceDropNotification [] "u" "p" "€2,00" "€1,00" "T" =
      [] ++ [⟨"u", "p", "€2,00", "€1,00", "T"⟩] ∧
    addNotificationToHistory [] "u" "p" "€2,00" "€1,00" "" "T" "D" =
      [] ++ [⟨"u", "p", "€2,00", "€1,00", "", "T", "D"⟩] :=
  ⟨((claim_C5 [] [] "u" "p" "€2,00" "€1,00" "" "T" "D").1 (by decide)).2.1 (by decide),
   ((claim_C5 [] [] "u" "p" "€2,00" "€1,00" "" "T" "D").2 (by decide)).2.1 (by decide)⟩

/-- Claim C3: starting from a tracked item whose history is within the
50-entry cap, `addPriceToHistory` leaves every resulting history within
the cap and modifies a history only at its ends: each resulting item is
either an untouched pre-state item, or its history is the pre-state
history (of the item with the target url, or the empty history of a
fresh item) unchanged, with the new entry appended, or — exactly when
the pre-state history held 50 entries — with the oldest entry evicted
and the new entry appended.  The hypotheses state that the pre-state is
validated data (as always holds for the list `addPriceToHistory` reads
through `getTrackedPrices`) and that `now`/`today` are real date
strings. -/
theorem claim_C3 (tp : List Item) (url productName price imageUrl now today : String)
    (hnow : now ≠ "") (htoday : today ≠ "")
    (hwf : ∀ it ∈ tp, WellFormedItem it)
    (hlen : ∀ it ∈ tp, it.history.length ≤ 50) :
    ∀ it2 ∈ addPriceToHistory tp url productName price imageUrl now today,
      it2.history.length ≤ 50 ∧
      (it2 ∈ tp ∨
        ∃ h0 : List HistoryEntry,
          (h0 = [] ∨ ∃ it ∈ tp, it.url = url ∧ it.history = h0) ∧
          (it2.history = h0 ∨
           it2.history = h0 ++ [createPriceHistoryEntry price today now] ∨
           (h0.length = 50 ∧
            it2.history = h0.tail ++ [createPriceHistoryEntry price today now]))) := by
  intro it2 hmem
  rcases hfind : tp.find? (fun it => it.url = url) with _ | it0
  · by_cases hurl : url = ""
    · have heq : addPriceToHistory tp url productName price imageUrl now today = tp := by
        unfold addPriceToHistory
        rw [hfind, if_pos hurl]
      rw [heq] at hmem
      exact ⟨hlen it2 hmem, Or.inl hmem⟩
    · have hwfnew : WellFormedItem
          { url := url, name := jsOrS productName "Unknown Product"
            imageUrl := jsOrS imageUrl "", lastChecked := now
            history := pushPriceToHistory [] price now today } := by
        refine ⟨hurl, jsOrS_ne_empty (by simp), hnow, ?_⟩
        intro e he
        simp only at he
        rcases pushPrice_mem he with h0 | h0
        · simp at h0
        · subst h0
          exact ⟨jsOrS_ne_empty (by simp), htoday, hnow⟩
      have heq : addPriceToHistory tp url productName price imageUrl now today =
          tp ++ [{ url := url, name := jsOrS productName "Unknown Product"
                   imageUrl := jsOrS imageUrl "", lastChecked := now
                   history := pushPriceToHistory [] price now today }] := by
        unfold addPriceToHistory
        rw [hfind, if_neg hurl]
        refine validateArrayS_id ?_
        intro x hx
        rcases List.mem_append.mp hx with h | h
        · exact hwf x h
        · simp only [List.mem_singleton] at h
          rw [h]
          exact hwfnew
      rw [heq] at hmem
      rcases List.mem_append.mp hmem with h | h
      · exact ⟨hlen it2 h, Or.inl h⟩
      · simp only [List.mem_singleton] at h
        obtain ⟨hl, hshape⟩ := pushPrice_shape [] price now today (by simp)
        subst h
        exact ⟨hl, Or.inr ⟨[], Or.inl rfl, hshape⟩⟩
  · have hupd : ∀ x ∈ updateFirst (updateExistingItem productName imageUrl price now today)
        url tp, WellFormedItem x := by
      intro x hx
      rcases updateFirst_mem hx with h | ⟨y, hy, _, hxy⟩
      · exact hwf x h
      · rw [hxy]
        exact wf_updateExisting (hwf y hy) hnow htoday
    have heq : addPriceToHistory tp url productName price imageUrl now today =
        updateFirst (updateExistingItem productName imageUrl price now today) url tp := by
      unfold addPriceToHistory
      rw [hfind]
      exact validateArrayS_id hupd
    rw [heq] at hmem
    rcases updateFirst_mem hmem with h | ⟨y, hy, hyu, hxy⟩
    · exact ⟨hlen it2 h, Or.inl h⟩
    · obtain ⟨hl, hshape⟩ := pushPrice_shape y.history price now today (hlen y hy)
      rw [hxy]
      exact ⟨hl, Or.inr ⟨y.history, Or.inr ⟨y, hy, hyu, rfl⟩, hshape⟩⟩

theorem claim_C3_witness :
    (⟨"u", "p", "", "T", [⟨"€5,00", "D", "T"⟩]⟩ : Item).history.length ≤ 50 :=
  (claim_C3 [⟨"u", "n", "", "t0", []⟩] "u" "p" "€5,00" "" "T" "D"
    (by decide) (by decide) (by decide) (by decide)
    ⟨"u", "p", "", "T", [⟨"€5,00", "D", "T"⟩]⟩ (by decide)).1

theorem jsLt_iff (a b : String) :
    jsLt (extractNumeric a) (extractNumeric b) = true ↔
    ∃ qa qb, extractNumericQ a = some qa ∧ extractNumericQ b = some qb ∧ qa < qb := by
  unfold extractNumericQ
  cases ha : extractNumeric a with
  | none => simp [jsLt]
  | some x =>
      cases hb : extractNumeric b with
      | none => simp [jsLt]
      | some y =>
          simp only [jsLt, Option.map_some', Option.some.injEq]
          rw [decLt_iff]
          constructor
          · intro h
            exact ⟨decVal x, decVal y, rfl, rfl, h⟩
          · rintro ⟨qa, qb, hqa, hqb, hab⟩
            rw [hqa, hqb]
            exact hab

theorem decEqD_false_of_ne {x y : ℕ × ℕ} (h : decVal x ≠ decVal y) :
    decEqD x y = false :=
  Bool.eq_false_iff.mpr (fun hEq => h ((decEqD_iff x y).mp hEq))

theorem jsNeq_of_valsNe {a b : String}
    (h : extractNumericQ a ≠ extractNumericQ b) :
    jsNeq (extractNumeric a) (extractNumeric b) = true := by
  unfold extractNumericQ at h
  cases ha : extractNumeric a with
  | none => cases hb : extractNumeric b <;> simp [jsNeq]
  | some x =>
      cases hb : extractNumeric b with
      | none => simp [jsNeq]
      | some y =>
          rw [ha, hb] at h
          simp only [Option.map_some', ne_eq, Option.some.injEq] at h
          simp only [jsNeq]
          rw [decEqD_false_of_ne h]
          rfl

theorem jsNeq_iff_vals {a b : String} {qa qb : ℚ}
    (ha : extractNumericQ a = some qa) (hb : extractNumericQ b = some qb) :
    (jsNeq (extractNumeric a) (extractNumeric b) = true ↔ qa ≠ qb) := by
  unfold extractNumericQ at ha hb
  cases ha2 : extractNumeric a with
  | none => rw [ha2] at ha; simp at ha
  | some x =>
      cases hb2 : extractNumeric b with
      | none => rw [hb2] at hb; simp at hb
      | some y =>
          rw [ha2] at ha
          rw [hb2] at hb
          simp only [Option.map_some', Option.some.injEq] at ha hb
          subst ha
          subst hb
          simp only [jsNeq, ne_eq]
          constructor
          · intro h hEq
            rw [(decEqD_iff x y).mpr hEq] at h
            simp at h
          · intro h
            rw [decEqD_false_of_ne h]
            rfl

/-- Claim C2: `isPriceLower(currentPrice, oldPrice)` returns true
exactly when both price strings have an actual (non-`NaN`) extracted
numeric value and the current one is strictly smaller; and inside the
`checkAllPrices` loop a price-drop notification is sent and recorded
for a URL exactly when `isPriceLower` holds for the fetched current
price versus the latest stored price (URLs whose extraction returned no
usable data are skipped). -/
theorem claim_C2 :
    (∀ currentPrice oldPrice, isPriceLower currentPrice oldPrice = true ↔
      ∃ qc qo, extractNumericQ currentPrice = some qc ∧
        extractNumericQ oldPrice = some qo ∧ qc < qo) ∧
    (∀ latestPrice d, d.price ≠ "" →
      checkPriceStep latestPrice (some d) = isPriceLower d.price latestPrice) ∧
    (∀ latestPrice, checkPriceStep latestPrice none = false) := by
  refine ⟨fun c o => jsLt_iff c o, fun latest d hd => ?_, fun latest => rfl⟩
  simp only [checkPriceStep]
  rw [if_neg hd]

theorem claim_C2_witness :
    isPriceLower "€5,00" "€6,00" = true ∧
    checkPriceStep "€6,00" (some ⟨"n", "€5,00"⟩) = isPriceLower "€5,00" "€6,00" :=
  ⟨(claim_C2.1 "€5,00" "€6,00").mpr
      ⟨decVal (500, 2), decVal (600, 2), rfl, rfl, (decLt_iff _ _).mp (by decide)⟩,
   claim_C2.2.1 "€6,00" ⟨"n", "€5,00"⟩ (by decide)⟩

/-- A price string containing neither digits nor commas. -/
def NoDigitsNoCommas (s : String) : Prop := ∀ c ∈ s.data, ¬c.isDigit ∧ c ≠ ','

instance (s : String) : Decidable (NoDigitsNoCommas s) := by
  unfold NoDigitsNoCommas; infer_instance

theorem extract_noNum {s : String} (h : NoDigitsNoCommas s) :
    extractNumeric s = some (0, 0) := by
  unfold extractNumeric
  split
  · rfl
  · have hfil : s.data.filter isNumChar = [] := by
      rw [List.filter_eq_nil_iff]
      intro c hc
      obtain ⟨h1, h2⟩ := h c hc
      simp [isNumChar, h1, h2]
    rw [hfil]
    rfl

/-- Claim C10: a price string with no digits and no commas is given the
numeric value 0 by the comparison logic; against an old price with a
strictly positive extracted value, `isPriceLower` reports a drop; and
for a digit-free new price against a (non-empty, as validation
guarantees for stored entries) digit-free last price,
`_shouldAddPriceToHistory` compares 0 to 0 and does not append. -/
theorem claim_C10 :
    (∀ s, NoDigitsNoCommas s → extractNumericQ s = some 0) ∧
    (∀ c o qo, NoDigitsNoCommas c → extractNumericQ o = some qo → 0 < qo →
      isPriceLower c o = true) ∧
    (∀ last newPrice, NoDigitsNoCommas last → NoDigitsNoCommas newPrice → last ≠ "" →
      shouldAddPriceToHistory (some last) newPrice = false) ∧
    (∀ h price now today, h ≠ [] →
      (∀ lastE, h.getLast? = some lastE → NoDigitsNoCommas lastE.price ∧ lastE.price ≠ "") →
      NoDigitsNoCommas price →
      pushPriceToHistory h price now today = h) := by
  have hzero : ∀ s, NoDigitsNoCommas s → extractNumericQ s = some 0 := by
    intro s hs
    unfold extractNumericQ
    rw [extract_noNum hs]
    simp [decVal]
  have hnoadd : ∀ last newPrice, NoDigitsNoCommas last → NoDigitsNoCommas newPrice →
      last ≠ "" → shouldAddPriceToHistory (some last) newPrice = false := by
    intro last newPrice hl hn hne
    simp only [shouldAddPriceToHistory]
    rw [if_neg hne, extract_noNum hl, extract_noNum hn]
    rfl
  refine ⟨hzero, ?_, hnoadd, ?_⟩
  · intro c o qo hc ho hpos
    unfold isPriceLower
    rw [extract_noNum hc]
    unfold extractNumericQ at ho
    cases hoe : extractNumeric o with
    | none => rw [hoe] at ho; simp at ho
    | some y =>
        rw [hoe] at ho
        simp only [Option.map_some', Option.some.injEq] at ho
        subst ho
        simp only [jsLt]
        rw [decLt_iff]
        have : decVal (0, 0) = 0 := by simp [decVal]
        rw [this]
        exact hpos
  · intro h price now today hne hlast hp
    obtain ⟨lastE, hl⟩ : ∃ lastE, h.getLast? = some lastE := by
      cases hq : h.getLast? with
      | none => exact absurd (List.getLast?_eq_none_iff.mp hq) hne
      | some x => exact ⟨x, rfl⟩
    obtain ⟨hnn, hpe⟩ := hlast lastE hl
    simp only [pushPriceToHistory]
    rw [hl]
    simp only [Option.map_some']
    simp [hnoadd lastE.price price hnn hp hpe]

theorem claim_C10_witness :
    isPriceLower "N/A" "€5,00" = true ∧
    shouldAddPriceToHistory (some "n-a") "N/A" = false ∧
    pushPriceToHistory [⟨"n-a", "D", "T"⟩] "N/A" "T2" "D2" = [⟨"n-a", "D", "T"⟩] :=
  ⟨claim_C10.2.1 "N/A" "€5,00" (decVal (500, 2)) (by decide) rfl (by norm_num [decVal]),
   claim_C10.2.2.1 "n-a" "N/A" (by decide) (by decide) (by decide),
   claim_C10.2.2.2 [⟨"n-a", "D", "T"⟩] "N/A" "T2" "D2" (by decide)
     (by
       intro lastE hl
       injection hl with h0
       subst h0
       exact ⟨by decide, by decide⟩)
     (by decide)⟩

/-- Claim C1 fails as stated: when the last stored price and the new
price are the very same string `"€,"` — whose numeric part is a lone
comma, so their numeric values under the claimed extraction coincide —
`addPriceToHistory` nevertheless appends a new entry (the extraction
yields `NaN`, and JavaScript `NaN !== NaN` is true), instead of leaving
the history unchanged. -/
theorem claim_C1_counterexample :
    extractNumericQ "€," = extractNumericQ "€," ∧
    (addPriceToHistory [⟨"u", "n", "", "t0", [⟨"€,", "D0", "T0"⟩]⟩]
        "u" "n" "€," "" "T1" "D1").map (fun it => it.history.length) = [2] :=
  ⟨rfl, by decide⟩

/-- Claim C1 (amended): the history-update step of `addPriceToHistory`
appends the new price (then applies the 50-entry cap) if and only if
the history is empty or the JavaScript strict inequality `!==` holds
between the numeric values extracted from the last stored price and the
new price; otherwise the history is unchanged.  The `!==` test
coincides with numeric difference whenever the extractions produce
actual numbers — it deviates only when both numeric parts fail to parse
(`NaN !== NaN` is true, so such prices are re-appended).  Stored
entries always have a non-empty price string, as validation
guarantees. -/
theorem claim_C1 (h : List HistoryEntry) (price now today : String)
    (hval : ∀ e ∈ h, e.price ≠ "") :
    (h = [] → pushPriceToHistory h price now today =
      [createPriceHistoryEntry price today now]) ∧
    (∀ last, h.getLast? = some last →
      (jsNeq (extractNumeric last.price) (extractNumeric price) = true →
        pushPriceToHistory h price now today =
          (if (h ++ [createPriceHistoryEntry price today now]).length > 50
           then (h ++ [createPriceHistoryEntry price today now]).tail
           else h ++ [createPriceHistoryEntry price today now])) ∧
      (jsNeq (extractNumeric last.price) (extractNumeric price) = false →
        pushPriceToHistory h price now today = h) ∧
      (extractNumericQ last.price ≠ extractNumericQ price →
        jsNeq (extractNumeric last.price) (extractNumeric price) = true) ∧
      (∀ qa qb, extractNumericQ last.price = some qa → extractNumericQ price = some qb →
        (jsNeq (extractNumeric last.price) (extractNumeric price) = true ↔ qa ≠ qb))) := by
  constructor
  · intro h0
    subst h0
    rfl
  · intro last hlastEq
    have hmem : last ∈ h := by
      obtain ⟨hne, hx⟩ := List.mem_getLast?_eq_getLast (l := h) (x := last)
        (by simp [Option.mem_def, hlastEq])
      rw [hx]
      exact List.getLast_mem hne
    have hpne : last.price ≠ "" := hval last hmem
    have hsa : shouldAddPriceToHistory (h.getLast?.map (fun e => e.price)) price =
        jsNeq (extractNumeric last.price) (extractNumeric price) := by
      rw [hlastEq]
      simp only [Option.map_some', shouldAddPriceToHistory]
      rw [if_neg hpne]
    refine ⟨?_, ?_, fun hne => jsNeq_of_valsNe hne, fun qa qb hqa hqb => jsNeq_iff_vals hqa hqb⟩
    · intro htrue
      simp only [pushPriceToHistory]
      rw [hsa, htrue]
      simp
    · intro hfalse
      simp only [pushPriceToHistory]
      rw [hsa, hfalse]
      simp

theorem claim_C1_witness :
    pushPriceToHistory [⟨"€5,00", "D", "T"⟩] "€4,00" "T2" "D2" =
      (if (([⟨"€5,00", "D", "T"⟩] : List HistoryEntry) ++
            [createPriceHistoryEntry "€4,00" "D2" "T2"]).length > 50
       then (([⟨"€5,00", "D", "T"⟩] : List HistoryEntry) ++
            [createPriceHistoryEntry "€4,00" "D2" "T2"]).tail
       else ([⟨"€5,00", "D", "T"⟩] : List HistoryEntry) ++
            [createPriceHistoryEntry "€4,00" "D2" "T2"]) :=
  ((claim_C1 [⟨"€5,00", "D", "T"⟩] "€4,00" "T2" "D2" (by decide)).2
    ⟨"€5,00", "D", "T"⟩ rfl).1 (by decide)

/-- A price string in the canonical format the extension produces
(`"€1234,56"`, `"1234,50 Lei"`, …): it contains no dot, its digits and
commas form one contiguous run, and that run holds at most one comma. -/
def CanonicalPrice (s : String) : Prop :=
  (∀ c ∈ s.data, c ≠ '.') ∧
  ∃ pre run post, s.data = pre ++ run ++ post ∧
    (∀ c ∈ pre, isNumChar c = false) ∧
    (∀ c ∈ run, isNumChar c = true) ∧
    (∀ c ∈ post, isNumChar c = false) ∧
    run.count ',' ≤ 1

theorem firstMatchRun_append_of_none {p : Char → Bool} {pre : List Char}
    (h : ∀ c ∈ pre, p c = false) (l : List Char) :
    firstMatchRun p (pre ++ l) = firstMatchRun p l := by
  induction pre with
  | nil => rfl
  | cons c cs ih =>
      have hc := h c (List.mem_cons_self c cs)
      simp only [List.cons_append, firstMatchRun, hc]
      simp only [Bool.false_eq_true, if_false]
      exact ih (fun x hx => h x (List.mem_cons_of_mem _ hx))

theorem firstMatchRun_eq_nil {p : Char → Bool} {l : List Char}
    (h : ∀ c ∈ l, p c = false) : firstMatchRun p l = [] := by
  induction l with
  | nil => rfl
  | cons c cs ih =>
      have hc := h c (List.mem_cons_self c cs)
      simp only [firstMatchRun, hc, Bool.false_eq_true, if_false]
      exact ih (fun x hx => h x (List.mem_cons_of_mem _ hx))

theorem takeWhile_append_of_all {p : Char → Bool} {l1 : List Char}
    (h : ∀ c ∈ l1, p c = true) (l2 : List Char) :
    (l1 ++ l2).takeWhile p = l1 ++ l2.takeWhile p := by
  induction l1 with
  | nil => rfl
  | cons c cs ih =>
      have hc := h c (List.mem_cons_self c cs)
      simp only [List.cons_append, List.takeWhile_cons, hc, if_true]
      rw [ih (fun x hx => h x (List.mem_cons_of_mem _ hx))]

theorem takeWhile_eq_nil_of_none {p : Char → Bool} {l : List Char}
    (h : ∀ c ∈ l, p c = false) : l.takeWhile p = [] := by
  cases l with
  | nil => rfl
  | cons c cs =>
      have hc := h c (List.mem_cons_self c cs)
      simp [List.takeWhile_cons, hc]

theorem map_commaToDot_of_no_comma {l : List Char} (h : l.count ',' = 0) :
    l.map (fun c => if c = ',' then '.' else c) = l := by
  induction l with
  | nil => rfl
  | cons c cs ih =>
      have hc : c ≠ ',' := by
        intro hq
        rw [hq, List.count_cons_self] at h
        omega
      have hcs : cs.count ',' = 0 := by
        rw [List.count_cons_of_ne (fun hq => hc hq.symm)] at h
        exact h
      simp only [List.map_cons, if_neg hc, ih hcs]

theorem replaceFirstComma_eq_map {l : List Char} (h : l.count ',' ≤ 1) :
    replaceFirstComma l = l.map (fun c => if c = ',' then '.' else c) := by
  induction l with
  | nil => rfl
  | cons c cs ih =>
      by_cases hc : c = ','
      · subst hc
        rw [List.count_cons_self] at h
        have hcs : cs.count ',' = 0 := by omega
        simp [replaceFirstComma, map_commaToDot_of_no_comma hcs]
      · have hcs : cs.count ',' ≤ 1 := by
          rw [List.count_cons_of_ne (fun hq => hc hq.symm)] at h
          exact h
        simp only [replaceFirstComma, if_neg hc, List.map_cons, if_neg hc, ih hcs]

theorem extract_eq_old {s : String} (hcp : CanonicalPrice s) :
    extractNumeric s = extractNumericOld s := by
  obtain ⟨hdot, pre, run, post, hs, hpre, hrun, hpost, hcnt⟩ := hcp
  have hdotpre : ∀ c ∈ pre, isNumDotChar c = false := by
    intro c hc
    have h1 := hpre c hc
    have h2 := hdot c (by rw [hs]; simp [hc])
    simp only [isNumDotChar, isNumChar] at h1 ⊢
    simp only [Bool.or_eq_false_iff] at h1 ⊢
    exact ⟨h1, by simpa using h2⟩
  have hdotpost : ∀ c ∈ post, isNumDotChar c = false := by
    intro c hc
    have h1 := hpost c hc
    have h2 := hdot c (by rw [hs]; simp [hc])
    simp only [isNumDotChar, isNumChar] at h1 ⊢
    simp only [Bool.or_eq_false_iff] at h1 ⊢
    exact ⟨h1, by simpa using h2⟩
  have hfil : s.data.filter isNumChar = run := by
    rw [hs, List.filter_append, List.filter_append]
    rw [List.filter_eq_nil_iff.mpr (by intro c hc; simp [hpre c hc]),
        List.filter_eq_self.mpr hrun,
        List.filter_eq_nil_iff.mpr (by intro c hc; simp [hpost c hc])]
    simp
  have hrunDot : ∀ c ∈ run, isNumDotChar c = true := by
    intro c hc
    have := hrun c hc
    simp only [isNumChar] at this
    simp only [isNumDotChar]
    rcases Bool.or_eq_true_iff.mp this with h | h <;> simp [h]
  have hmatch : firstMatchRun isNumDotChar s.data = run := by
    rw [hs, List.append_assoc, firstMatchRun_append_of_none hdotpre]
    cases run with
    | nil => exact firstMatchRun_eq_nil hdotpost
    | cons r rs =>
        simp only [List.cons_append, firstMatchRun,
          hrunDot r (List.mem_cons_self r rs), if_true]
        simp only [List.append_eq]
        rw [takeWhile_append_of_all (fun x hx => hrunDot x (List.mem_cons_of_mem _ hx)),
            takeWhile_eq_nil_of_none hdotpost]
        simp
  have hfilter_map : (run.map (fun c => if c = ',' then '.' else c)).filter
      (fun c => c.isDigit || c = '.') = run.map (fun c => if c = ',' then '.' else c) := by
    rw [List.filter_eq_self]
    intro c hc
    obtain ⟨x, hx, hxc⟩ := List.mem_map.mp hc
    subst hxc
    by_cases hxq : x = ','
    · rw [if_pos hxq]
      simp
    · rw [if_neg hxq]
      have hx2 := hrun x hx
      simp only [isNumChar, Bool.or_eq_true_iff] at hx2
      rcases hx2 with h | h
      · simp [h]
      · simp only [decide_eq_true_iff] at h
        exact absurd h hxq
  cases hrunE : run with
  | nil =>
      subst hrunE
      have hext : extractNumeric s = some (0, 0) := by
        simp only [extractNumeric]
        split
        · rfl
        · rw [hfil]
          rfl
      have hold : extractNumericOld s = some (0, 0) := by
        simp only [extractNumericOld]
        rw [hmatch]
      rw [hext, hold]
  | cons r rs =>
      subst hrunE
      have hsne : s ≠ "" := by
        intro h0
        have hd2 : s.data = [] := by rw [h0]
        rw [hs] at hd2
        simp at hd2
      have hext : extractNumeric s =
          parseFloatDec (replaceFirstComma (r :: rs)) := by
        simp only [extractNumeric]
        rw [if_neg hsne, hfil]
        rfl
      have hold : extractNumericOld s =
          parseFloatDec (((r :: rs).map (fun c => if c = ',' then '.' else c)).filter
            (fun c => c.isDigit || c = '.')) := by
        simp only [extractNumericOld]
        rw [hmatch]
      rw [hext, hold, hfilter_map, replaceFirstComma_eq_map hcnt]

/-- Claim C7 fails as stated: the two `isPriceLower` revisions are not
equivalent on all price strings.  The earlier revision keeps dots as
decimal separators (`"1.5"` parses as 1.5), while the current revision
strips them (`"1.5"` parses as 15), so comparing `"1.5"` against `"2"`
yields opposite answers. -/
theorem claim_C7_counterexample :
    isPriceLower "1.5" "2" = false ∧ isPriceLowerOld "1.5" "2" = true := by
  decide

/-- Claim C7 (amended): the current `BackgroundPriceTracker.isPriceLower`
and the standalone `isPriceLower` of the earlier background-script
revisions agree on every pair of price strings in the canonical format
the extension produces — no dot, the digits and commas forming one
contiguous run with at most one comma.  They differ on other inputs
(dots, thousands separators, or scattered digit groups). -/
theorem claim_C7 (c o : String) (hc : CanonicalPrice c) (ho : CanonicalPrice o) :
    isPriceLower c o = isPriceLowerOld c o := by
  unfold isPriceLower isPriceLowerOld
  rw [extract_eq_old hc, extract_eq_old ho]

theorem claim_C7_witness :
    isPriceLower "€5,00" "€6,00" = isPriceLowerOld "€5,00" "€6,00" :=
  claim_C7 "€5,00" "€6,00"
    ⟨by decide, ['€'], ['5', ',', '0', '0'], [], by decide, by decide, by decide, by decide⟩
    ⟨by decide, ['€'], ['6', ',', '0', '0'], [], by decide, by decide, by decide, by decide⟩

/-- The url column of a tracked-prices list. -/
def urlsOf (l : List Item) : List String := l.map (fun it => it.url)

theorem validateItemS_none {now today : String} {x : Item} (h : x.url = "") :
    validateItemS now today x = none := by
  unfold validateItemS
  rw [if_pos h]

theorem validateItemS_url {now today : String} {x y : Item}
    (h : validateItemS now today x = some y) : y.url = x.url := by
  unfold validateItemS at h
  split at h
  · cases h
  · cases h
    rfl

theorem urlsOf_validateArrayS (now today : String) (l : List Item) :
    urlsOf (validateArrayS now today l) = (urlsOf l).filter (fun u => u ≠ "") := by
  induction l with
  | nil => rfl
  | cons x xs ih =>
      by_cases hx : x.url = ""
      · simp only [validateArrayS, urlsOf, List.map_cons] at ih ⊢
        rw [validateItemS_none hx, List.reduceOption_cons_of_none, List.filter_cons]
        simp only [hx]
        simpa using ih
      · cases hsome : validateItemS now today x with
        | none =>
            exfalso
            unfold validateItemS at hsome
            rw [if_neg hx] at hsome
            cases hsome
        | some y =>
            simp only [validateArrayS, urlsOf, List.map_cons] at ih ⊢
            rw [hsome, List.reduceOption_cons_of_some, List.filter_cons]
            simp only [List.map_cons, validateItemS_url hsome, ih]
            rw [if_pos (by simp [hx])]

theorem updateFirst_urlsOf {f : Item → Item} (hf : ∀ y, (f y).url = y.url)
    (url : String) (tp : List Item) : urlsOf (updateFirst f url tp) = urlsOf tp := by
  induction tp with
  | nil => rfl
  | cons x xs ih =>
      unfold updateFirst
      split
      · simp only [urlsOf, List.map_cons, hf x]
      · simp only [urlsOf, List.map_cons] at ih ⊢
        rw [ih]

theorem urlsOf_append_singleton (tp : List Item) (x : Item) :
    urlsOf (tp ++ [x]) = urlsOf tp ++ [x.url] := by
  simp [urlsOf]

/-- Claim C6: the tracked-prices ledger keeps the URL as a unique key:
on a list in which each URL occurs at most once (and, as validation
guarantees, is non-empty), both `addPriceToHistory` and
`findOrCreateTrackedItem` preserve that uniqueness; when an item with
the URL exists it is updated in place (the URL column is unchanged),
and a new item is pushed only when no item with that URL exists. -/
theorem claim_C6 (tp : List Item) (url productName price imageUrl now today : String)
    (hurl : ∀ it ∈ tp, it.url ≠ "")
    (hnd : (urlsOf tp).Nodup) :
    (urlsOf (addPriceToHistory tp url productName price imageUrl now today)).Nodup ∧
    (urlsOf (findOrCreateTrackedItem tp url productName imageUrl now today)).Nodup ∧
    ((∃ it ∈ tp, it.url = url) →
      urlsOf (addPriceToHistory tp url productName price imageUrl now today) = urlsOf tp ∧
      urlsOf (findOrCreateTrackedItem tp url productName imageUrl now today) = urlsOf tp) ∧
    ((¬∃ it ∈ tp, it.url = url) → url ≠ "" →
      urlsOf (addPriceToHistory tp url productName price imageUrl now today) =
        urlsOf tp ++ [url] ∧
      urlsOf (findOrCreateTrackedItem tp url productName imageUrl now today) =
        urlsOf tp ++ [url]) := by
  have hfilter : ∀ l : List Item, (∀ it ∈ l, it.url ≠ "") →
      (urlsOf l).filter (fun u => u ≠ "") = urlsOf l := by
    intro l hl
    rw [List.filter_eq_self]
    intro u hu
    obtain ⟨it, hit, hiteq⟩ := List.mem_map.mp hu
    simp [← hiteq, hl it hit]
  rcases hfind : tp.find? (fun it => it.url = url) with _ | it0
  · have hnotex : ¬∃ it ∈ tp, it.url = url := by
      rintro ⟨it, hit, hiteq⟩
      have := List.find?_eq_none.mp hfind it hit
      simp [hiteq] at this
    by_cases hu0 : url = ""
    · have haddEq : addPriceToHistory tp url productName price imageUrl now today = tp := by
        unfold addPriceToHistory
        rw [hfind, if_pos hu0]
      have hfocEq : urlsOf (findOrCreateTrackedItem tp url productName imageUrl now today) =
          urlsOf tp := by
        unfold findOrCreateTrackedItem
        rw [hfind, urlsOf_validateArrayS]
        rw [urlsOf_append_singleton, List.filter_append, hfilter tp hurl]
        simp [hu0]
      refine ⟨by rw [haddEq]; exact hnd, by rw [hfocEq]; exact hnd, ?_, ?_⟩
      · intro hex
        exact absurd hex hnotex
      · intro _ hu
        exact absurd hu0 hu
    · have haddEq : urlsOf (addPriceToHistory tp url productName price imageUrl now today) =
          urlsOf tp ++ [url] := by
        unfold addPriceToHistory
        rw [hfind, if_neg hu0, urlsOf_validateArrayS]
        rw [urlsOf_append_singleton, List.filter_append, hfilter tp hurl]
        simp [hu0]
      have hfocEq : urlsOf (findOrCreateTrackedItem tp url productName imageUrl now today) =
          urlsOf tp ++ [url] := by
        unfold findOrCreateTrackedItem
        rw [hfind, urlsOf_validateArrayS]
        rw [urlsOf_append_singleton, List.filter_append, hfilter tp hurl]
        simp [hu0]
      have hnotmem : url ∉ urlsOf tp := by
        intro hmem
        obtain ⟨it, hit, hiteq⟩ := List.mem_map.mp hmem
        exact hnotex ⟨it, hit, hiteq⟩
      have hndapp : (urlsOf tp ++ [url]).Nodup := by
        rw [List.nodup_append]
        refine ⟨hnd, List.nodup_singleton url, ?_⟩
        intro a ha hb
        simp only [List.mem_singleton] at hb
        subst hb
        exact hnotmem ha
      refine ⟨by rw [haddEq]; exact hndapp, by rw [hfocEq]; exact hndapp, ?_, ?_⟩
      · intro hex
        exact absurd hex hnotex
      · intro _ _
        exact ⟨haddEq, hfocEq⟩
  · have hex : ∃ it ∈ tp, it.url = url := by
      refine ⟨it0, List.mem_of_find?_eq_some hfind, ?_⟩
      have := List.find?_some hfind
      simpa using this
    have haddEq : urlsOf (addPriceToHistory tp url productName price imageUrl now today) =
        urlsOf tp := by
      unfold addPriceToHistory
      rw [hfind, urlsOf_validateArrayS,
          updateFirst_urlsOf (f := updateExistingItem productName imageUrl price now today)
            (fun y => rfl) url tp,
          hfilter tp hurl]
    have hfocEq : urlsOf (findOrCreateTrackedItem tp url productName imageUrl now today) =
        urlsOf tp := by
      unfold findOrCreateTrackedItem
      rw [hfind, urlsOf_validateArrayS,
          updateFirst_urlsOf (f := touchExistingItem productName imageUrl now)
            (fun y => rfl) url tp,
          hfilter tp hurl]
    refine ⟨by rw [haddEq]; exact hnd, by rw [hfocEq]; exact hnd, fun _ => ⟨haddEq, hfocEq⟩, ?_⟩
    intro hnex _
    exact absurd hex hnex

theorem claim_C6_witness :
    (urlsOf (addPriceToHistory [⟨"u", "n", "", "t0", []⟩] "u" "p" "€5,00" "" "T" "D")).Nodup ∧
    (urlsOf (findOrCreateTrackedItem [⟨"u", "n", "", "t0", []⟩] "u" "p" "" "T" "D")).Nodup :=
  ⟨(claim_C6 [⟨"u", "n", "", "t0", []⟩] "u" "p" "€5,00" "" "T" "D"
      (by decide) (by decide)).1,
   (claim_C6 [⟨"u", "n", "", "t0", []⟩] "u" "p" "€5,00" "" "T" "D"
      (by decide) (by decide)).2.1⟩

theorem jsTruthy_jsOr_str {a : JSVal} {d : String} (hd : d ≠ "") :
    jsTruthy (jsOr a (.str d)) = true := by
  unfold jsOr
  split
  · assumption
  · simp [jsTruthy, hd]

theorem validateEntries_mem {now today : String} {l : List JSVal} {es : List NormEntry}
    (h : validateEntries now today l = some es) :
    ∀ e2 ∈ es, ∃ e ∈ l, validateHistoryEntry now today e = some e2 := by
  induction l generalizing es with
  | nil =>
      cases h
      intro e2 he2
      simp at he2
  | cons e l2 ih =>
      simp only [validateEntries] at h
      split at h
      · next e2 es2 he he2 =>
          cases h
          intro x hx
          rcases List.mem_cons.mp hx with h1 | h1
          · exact ⟨e, List.mem_cons_self e l2, by rw [he, h1]⟩
          · obtain ⟨y, hy, hyv⟩ := ih he2 x h1
            exact ⟨y, List.mem_cons_of_mem _ hy, hyv⟩
      · cases h

theorem validateTrackedPriceItem_some {now today : String} {x : JSVal} {it : NormItem}
    (h : validateTrackedPriceItem now today x = some it) :
    it.url ≠ "" ∧ jsTruthy it.name = true ∧
    ∀ e ∈ it.history, jsTruthy e.price = true := by
  unfold validateTrackedPriceItem at h
  split at h
  · cases h
  · split at h
    · cases h
    · next hguard =>
        have hab : (jsTruthy (getField x "url") && isStringType (getField x "url")) = true := by
          revert hguard
          cases jsTruthy (getField x "url") && isStringType (getField x "url") <;> simp
        obtain ⟨h1, h2⟩ := Bool.and_eq_true_iff.mp hab
        split at h
        · cases h
        · next entries hent =>
            cases h
            refine ⟨?_, jsTruthy_jsOr_str (by simp), ?_⟩
            · cases hv : getField x "url" with
              | str s =>
                  rw [hv] at h1
                  simp only [jsTruthy] at h1
                  simp only [strVal, hv]
                  simpa using h1
              | undefined => rw [hv] at h2; cases h2
              | null => rw [hv] at h2; cases h2
              | bool b => rw [hv] at h2; cases h2
              | num q => rw [hv] at h2; cases h2
              | arr xs => rw [hv] at h2; cases h2
              | obj fs => rw [hv] at h2; cases h2
            · intro e he
              obtain ⟨e0, he0, hval⟩ := validateEntries_mem hent e he
              unfold validateHistoryEntry at hval
              split at hval
              · cases hval
              · cases hval
                exact jsTruthy_jsOr_str (by simp)

/-- Claim C8: `getTrackedPrices` is total on arbitrary stored values
(the model is a total function: no exception escapes) and always yields
a well-formed list: every returned item has a non-empty string url, a
truthy name, and a history of normalized entries each carrying truthy
`price` (plus `date`/`timestamp`) fields; a stored value that is not an
array yields the empty list; and on an array, elements whose `url` is
not a truthy string are dropped by validation rather than failing the
whole read. -/
theorem claim_C8 (stored : JSVal) (now today : String) :
    (∀ it ∈ getTrackedPrices stored now today,
      it.url ≠ "" ∧ jsTruthy it.name = true ∧
      ∀ e ∈ it.history, jsTruthy e.price = true) ∧
    ((∀ xs, stored ≠ .arr xs) → getTrackedPrices stored now today = []) ∧
    (∀ xs, stored = .arr xs →
      getTrackedPrices stored now today =
        (xs.map (validateTrackedPriceItem now today)).reduceOption ∧
      ∀ x ∈ xs,
        jsTruthy (getField x "url") = false ∨ isStringType (getField x "url") = false →
        validateTrackedPriceItem now today x = none) := by
  refine ⟨?_, ?_, ?_⟩
  · intro it hit
    have hsome : ∃ x, validateTrackedPriceItem now today x = some it := by
      unfold getTrackedPrices validateTrackedPricesArray at hit
      revert hit
      split
      · next xs heq =>
          intro hit
          rw [List.reduceOption_mem_iff] at hit
          obtain ⟨ox, hox, hoxeq⟩ := List.mem_map.mp hit
          exact ⟨ox, hoxeq⟩
      · intro hit
        simp at hit
    obtain ⟨x, hx⟩ := hsome
    exact validateTrackedPriceItem_some hx
  · intro hna
    unfold getTrackedPrices jsOr
    split
    · cases stored with
      | arr xs => exact absurd rfl (hna xs)
      | undefined => rfl
      | null => rfl
      | bool b => rfl
      | num q => rfl
      | str s => rfl
      | obj fs => rfl
    · rfl
  · intro xs hxs
    subst hxs
    constructor
    · rfl
    · intro x hx hbad
      unfold validateTrackedPriceItem
      split
      · rfl
      · have hfalse : (jsTruthy (getField x "url") && isStringType (getField x "url")) = false := by
          rcases hbad with hb | hb <;> simp [hb]
        simp [hfalse]

theorem claim_C8_witness :
    (⟨"u", .str "Unknown Product", .str "", .str "T", []⟩ : NormItem).url ≠ "" :=
  ((claim_C8 (.arr [.obj [("url", .str "u"), ("history", .str "bogus")], .num 3]) "T" "D").1
    ⟨"u", .str "Unknown Product", .str "", .str "T", []⟩
    (List.mem_singleton.mpr rfl)).1

/-- Claim C9: `removeTrackedItem(url)` affects only the given URL: on a
valid (already-normalized) state, no item with that URL remains in the
tracked-prices list or the tracked-items map, every entry with a
different URL is kept unchanged, and the relative order of the
survivors is preserved (they form a sublist of the pre-state). -/
theorem claim_C9 {α : Type u} (tp : List Item) (items : List (String × α))
    (url now today : String)
    (hwf : ∀ it ∈ tp, WellFormedItem it) :
    (∀ it ∈ (removeTrackedItem tp items url now today).1, it.url ≠ url) ∧
    (∀ p ∈ (removeTrackedItem tp items url now today).2, p.1 ≠ url) ∧
    (removeTrackedItem tp items url now today).1.Sublist tp ∧
    (removeTrackedItem tp items url now today).2.Sublist items ∧
    (∀ it ∈ tp, it.url ≠ url → it ∈ (removeTrackedItem tp items url now today).1) ∧
    (∀ p ∈ items, p.1 ≠ url → p ∈ (removeTrackedItem tp items url now today).2) := by
  have heq1 : (removeTrackedItem tp items url now today).1 =
      tp.filter (fun it => it.url ≠ url) := by
    unfold removeTrackedItem
    exact validateArrayS_id (fun it hit => hwf it (List.mem_of_mem_filter hit))
  have heq2 : (removeTrackedItem tp items url now today).2 =
      items.filter (fun p => p.1 ≠ url) := rfl
  rw [heq1, heq2]
  refine ⟨?_, ?_, List.filter_sublist tp, List.filter_sublist items, ?_, ?_⟩
  · intro it hit
    have := (List.mem_filter.mp hit).2
    simpa using this
  · intro p hp
    have := (List.mem_filter.mp hp).2
    simpa using this
  · intro it hit hne
    exact List.mem_filter.mpr ⟨hit, by simpa using hne⟩
  · intro p hp hne
    exact List.mem_filter.mpr ⟨hp, by simpa using hne⟩

theorem claim_C9_witness :
    (⟨"v", "n", "", "t0", []⟩ : Item).url ≠ "u" :=
  (claim_C9 [⟨"u", "n", "", "t0", []⟩, ⟨"v", "n", "", "t0", []⟩]
    ([("u", "x")] : List (String × String)) "u" "T" "D" (by decide)).1
    ⟨"v", "n", "", "t0", []⟩ (by decide)

/-! ### Scheduler lemmas (claim C4) -/

theorem replaceKeyFirst_keys (k : String) (v : SchedEntry) (m : List (String × SchedEntry)) :
    (replaceKeyFirst k v m).map Prod.fst = m.map Prod.fst := by
  induction m with
  | nil => rfl
  | cons q rest ih =>
      unfold replaceKeyFirst
      split
      · next hq => simp [← hq]
      · simp only [List.map_cons]
        rw [ih]

theorem replaceKeyFirst_mem {k : String} {v : SchedEntry} {m : List (String × SchedEntry)}
    (hnd : (m.map Prod.fst).Nodup) {p : String × SchedEntry}
    (hp : p ∈ replaceKeyFirst k v m) :
    p = (k, v) ∨ (p ∈ m ∧ p.1 ≠ k) := by
  induction m with
  | nil => simp [replaceKeyFirst] at hp
  | cons q rest ih =>
      simp only [List.map_cons, List.nodup_cons] at hnd
      unfold replaceKeyFirst at hp
      revert hp
      split
      · next hq =>
          intro hp
          rcases List.mem_cons.mp hp with h | h
          · exact Or.inl h
          · refine Or.inr ⟨List.mem_cons_of_mem _ h, ?_⟩
            intro hk
            apply hnd.1
            rw [hq, ← hk]
            exact List.mem_map_of_mem Prod.fst h
      · next hq =>
          intro hp
          rcases List.mem_cons.mp hp with h | h
          · subst h
            exact Or.inr ⟨List.mem_cons_self _ _, hq⟩
          · rcases ih hnd.2 h with h2 | ⟨h2, h3⟩
            · exact Or.inl h2
            · exact Or.inr ⟨List.mem_cons_of_mem _ h2, h3⟩

theorem replaceKeyFirst_mem_new {k : String} {v : SchedEntry}
    {m : List (String × SchedEntry)} (hk : k ∈ m.map Prod.fst) :
    (k, v) ∈ replaceKeyFirst k v m := by
  induction m with
  | nil => simp at hk
  | cons q rest ih =>
      unfold replaceKeyFirst
      split
      · exact List.mem_cons_self _ _
      · next hq =>
          simp only [List.map_cons, List.mem_cons] at hk
          rcases hk with h | h
          · exact absurd h.symm hq
          · exact List.mem_cons_of_mem _ (ih h)

theorem nodup_keys_unique {m : List (String × SchedEntry)}
    (hnd : (m.map Prod.fst).Nodup) {p q : String × SchedEntry}
    (hp : p ∈ m) (hq : q ∈ m) (hpq : p.1 = q.1) : p = q :=
  List.inj_on_of_nodup_map hnd hp hq hpq

/-- The invariant maintained by the `getLatestPricePerUrl` fold: keys
are unique; every stored pair is a processed entry with matching
non-empty url and non-empty price whose date is maximal among the
processed entries for that url; and every processed valid entry has its
url present. -/
def LatestInv (m : List (String × SchedEntry)) (seen : List SchedEntry) : Prop :=
  (m.map Prod.fst).Nodup ∧
  (∀ p ∈ m, p.2.url = p.1 ∧ p.1 ≠ "" ∧ p.2.price ≠ "" ∧ p.2 ∈ seen ∧
    ∀ e ∈ seen, e.url = p.1 → e.price ≠ "" → e.date ≤ p.2.date) ∧
  (∀ e ∈ seen, e.url ≠ "" → e.price ≠ "" → e.url ∈ m.map Prod.fst)

theorem stepLatest_inv {m : List (String × SchedEntry)} {seen : List SchedEntry}
    (hinv : LatestInv m seen) (e : SchedEntry) :
    LatestInv (stepLatest m e) (seen ++ [e]) := by
  obtain ⟨hnd, hpairs, hcov⟩ := hinv
  unfold stepLatest
  split
  · next hskip =>
      have hbad : e.url = "" ∨ e.price = "" := by
        rcases Bool.or_eq_true_iff.mp hskip with h | h
        · exact Or.inl (by simpa using h)
        · exact Or.inr (by simpa using h)
      refine ⟨hnd, ?_, ?_⟩
      · intro p hp
        obtain ⟨h1, h2, h3, h4, h5⟩ := hpairs p hp
        refine ⟨h1, h2, h3, List.mem_append_left _ h4, ?_⟩
        intro e2 he2 hu hpr
        rcases List.mem_append.mp he2 with h | h
        · exact h5 e2 h hu hpr
        · simp only [List.mem_singleton] at h
          subst h
          rcases hbad with hb | hb
          · rw [hb] at hu
            exact absurd hu.symm h2
          · exact absurd hb hpr
      · intro e2 he2 hu hpr
        rcases List.mem_append.mp he2 with h | h
        · exact hcov e2 h hu hpr
        · simp only [List.mem_singleton] at h
          subst h
          rcases hbad with hb | hb
          · exact absurd hb hu
          · exact absurd hb hpr
  · next hvalid =>
      have hvu : e.url ≠ "" := by
        intro h0
        apply hvalid
        simp [h0]
      have hvp : e.price ≠ "" := by
        intro h0
        apply hvalid
        simp [h0]
      rcases hfind : m.find? (fun p => p.1 = e.url) with _ | p0
      all_goals simp only [hfind]
      · have hnotkey : e.url ∉ m.map Prod.fst := by
          intro hk
          obtain ⟨p, hp, hpe⟩ := List.mem_map.mp hk
          have := List.find?_eq_none.mp hfind p hp
          simp [hpe] at this
        refine ⟨?_, ?_, ?_⟩
        · rw [List.map_append]
          rw [List.nodup_append]
          refine ⟨hnd, by simp, ?_⟩
          intro a ha hb
          simp only [List.map_cons, List.map_nil, List.mem_singleton] at hb
          subst hb
          exact hnotkey ha
        · intro p hp
          rcases List.mem_append.mp hp with h | h
          · obtain ⟨h1, h2, h3, h4, h5⟩ := hpairs p h
            refine ⟨h1, h2, h3, List.mem_append_left _ h4, ?_⟩
            intro e2 he2 hu hpr
            rcases List.mem_append.mp he2 with hh | hh
            · exact h5 e2 hh hu hpr
            · simp only [List.mem_singleton] at hh
              subst hh
              exfalso
              apply hnotkey
              rw [hu]
              exact List.mem_map_of_mem Prod.fst h
          · simp only [List.mem_singleton] at h
            subst h
            refine ⟨rfl, hvu, hvp, List.mem_append_right _ (by simp), ?_⟩
            intro e2 he2 hu hpr
            have hu2 : e2.url = e.url := hu
            rcases List.mem_append.mp he2 with hh | hh
            · exfalso
              apply hnotkey
              rw [← hu2]
              exact hcov e2 hh (by rw [hu2]; exact hvu) hpr
            · simp only [List.mem_singleton] at hh
              subst hh
              exact le_refl _
        · intro e2 he2 hu hpr
          rw [List.map_append]
          rcases List.mem_append.mp he2 with h | h
          · exact List.mem_append_left _ (hcov e2 h hu hpr)
          · simp only [List.mem_singleton] at h
            subst h
            simp
      · have hp0 : p0 ∈ m := List.mem_of_find?_eq_some hfind
        have hp0k : p0.1 = e.url := by
          have := List.find?_some hfind
          simpa using this
        obtain ⟨hp01, hp02, hp03, hp04, hp05⟩ := hpairs p0 hp0
        split
        · next hdate =>
            refine ⟨?_, ?_, ?_⟩
            · rw [replaceKeyFirst_keys]
              exact hnd
            · intro p hp
              rcases replaceKeyFirst_mem hnd hp with h | ⟨h, hkne⟩
              · subst h
                refine ⟨rfl, hvu, hvp, List.mem_append_right _ (by simp), ?_⟩
                intro e2 he2 hu hpr
                rcases List.mem_append.mp he2 with hh | hh
                · have : e2.date ≤ p0.2.date := hp05 e2 hh (by rw [hu, ← hp0k]) hpr
                  exact le_of_lt (lt_of_le_of_lt this hdate)
                · simp only [List.mem_singleton] at hh
                  subst hh
                  exact le_refl _
              · obtain ⟨h1, h2, h3, h4, h5⟩ := hpairs p h
                refine ⟨h1, h2, h3, List.mem_append_left _ h4, ?_⟩
                intro e2 he2 hu hpr
                rcases List.mem_append.mp he2 with hh | hh
                · exact h5 e2 hh hu hpr
                · simp only [List.mem_singleton] at hh
                  subst hh
                  exact absurd (hu ▸ hkne) (by simp [hu])
            · intro e2 he2 hu hpr
              rw [replaceKeyFirst_keys]
              rcases List.mem_append.mp he2 with h | h
              · exact hcov e2 h hu hpr
              · simp only [List.mem_singleton] at h
                subst h
                rw [← hp0k]
                exact List.mem_map_of_mem Prod.fst hp0
        · next hdate =>
            have hnotlt : e.date ≤ p0.2.date := le_of_not_lt hdate
            refine ⟨hnd, ?_, ?_⟩
            · intro p hp
              obtain ⟨h1, h2, h3, h4, h5⟩ := hpairs p hp
              refine ⟨h1, h2, h3, List.mem_append_left _ h4, ?_⟩
              intro e2 he2 hu hpr
              rcases List.mem_append.mp he2 with hh | hh
              · exact h5 e2 hh hu hpr
              · simp only [List.mem_singleton] at hh
                subst hh
                have hpp0 : p = p0 := nodup_keys_unique hnd hp hp0 (by rw [hp0k, hu])
                rw [hpp0]
                exact hnotlt
            · intro e2 he2 hu hpr
              rcases List.mem_append.mp he2 with h | h
              · exact hcov e2 h hu hpr
              · simp only [List.mem_singleton] at h
                subst h
                rw [← hp0k]
                exact List.mem_map_of_mem Prod.fst hp0

theorem foldl_stepLatest_inv (tp : List SchedEntry) :
    ∀ (seen : List SchedEntry) (m : List (String × SchedEntry)),
      LatestInv m seen → LatestInv (tp.foldl stepLatest m) (seen ++ tp) := by
  induction tp with
  | nil =>
      intro seen m h
      simpa using h
  | cons e tp2 ih =>
      intro seen m h
      have h3 := ih (seen ++ [e]) (stepLatest m e) (stepLatest_inv h e)
      simpa using h3

theorem latestInv_getLatest (tp : List SchedEntry) :
    LatestInv (getLatestPricePerUrl tp) tp := by
  have h0 : LatestInv [] [] := ⟨List.nodup_nil, by simp, by simp⟩
  have := foldl_stepLatest_inv tp [] [] h0
  simpa [getLatestPricePerUrl] using this

theorem find?_key_some {m : List (String × SchedEntry)} {u : String}
    (hnd : (m.map Prod.fst).Nodup) {p : String × SchedEntry}
    (hp : p ∈ m) (hpu : p.1 = u) : m.find? (fun q => q.1 = u) = some p := by
  cases hfind : m.find? (fun q => q.1 = u) with
  | none =>
      have := List.find?_eq_none.mp hfind p hp
      simp [hpu] at this
  | some q =>
      have hq := List.mem_of_find?_eq_some hfind
      have hq2 : q.1 = u := by
        have := List.find?_some hfind
        simpa using this
      rw [nodup_keys_unique hnd hq hp (by rw [hq2, hpu])]

theorem filterMap_keys_sublist (now : Int) (t : ℚ) (m : List (String × SchedEntry)) :
    (m.filterMap (fun p => if entryNeedsCheck now t p.2 then some p.1 else none)).Sublist
      (m.map Prod.fst) := by
  induction m with
  | nil => exact List.Sublist.refl []
  | cons p rest ih =>
      by_cases hc : entryNeedsCheck now t p.2 = true
      · simp only [List.filterMap_cons, List.map_cons, if_pos hc]
        exact List.Sublist.cons₂ _ ih
      · simp only [List.filterMap_cons, List.map_cons, if_neg hc]
        exact List.Sublist.cons _ ih

/-- Claim C4 fails as stated: an entry with no top-level `price` field
(in particular any tracked item in the current nested-history format)
is skipped by the scheduler's `getLatestPricePerUrl`, so its URL is
never returned even when it has never been checked. -/
theorem claim_C4_counterexample :
    getUrlsNeedingCheck [⟨"u", "", 0, none⟩] 1 0 = [] ∧
    (⟨"u", "", 0, none⟩ : SchedEntry).lastChecked = none := by
  constructor
  · rfl
  · rfl

/-- Claim C4 (amended): `getUrlsNeedingCheck(trackedPrices,
hoursThreshold)` returns exactly the URLs of entries that carry both a
non-empty url and a non-empty top-level price and need checking: among
such entries the one with the latest date is selected per URL (ties
keep the earliest), and the URL is returned iff that entry has no
`lastChecked` timestamp or its `lastChecked` lies at least
`hoursThreshold` hours before now; entries with a falsy url or price
never contribute, and each URL appears at most once in the result. -/
theorem claim_C4 (tp : List SchedEntry) (t : ℚ) (now : Int) :
    (getUrlsNeedingCheck tp t now).Nodup ∧
    (∀ u, u ∈ getUrlsNeedingCheck tp t now ↔
      ∃ e, lookupLatest tp u = some e ∧ entryNeedsCheck now t e = true) ∧
    (∀ u e, lookupLatest tp u = some e →
      e ∈ tp ∧ e.url = u ∧ u ≠ "" ∧ e.price ≠ "" ∧
      ∀ e2 ∈ tp, e2.url = u → e2.price ≠ "" → e2.date ≤ e.date) ∧
    (∀ e ∈ tp, e.url ≠ "" → e.price ≠ "" → ∃ e2, lookupLatest tp e.url = some e2) := by
  obtain ⟨hnd, hpairs, hcov⟩ := latestInv_getLatest tp
  refine ⟨?_, ?_, ?_, ?_⟩
  · exact hnd.sublist (filterMap_keys_sublist now t (getLatestPricePerUrl tp))
  · intro u
    unfold getUrlsNeedingCheck
    rw [List.mem_filterMap]
    constructor
    · rintro ⟨p, hp, hif⟩
      revert hif
      split
      · next hneed =>
          intro hif
          have hpu : p.1 = u := by
            simpa using hif
          refine ⟨p.2, ?_, hneed⟩
          unfold lookupLatest
          rw [find?_key_some hnd hp hpu]
          rfl
      · intro hif
        cases hif
    · rintro ⟨e, hlk, hneed⟩
      unfold lookupLatest at hlk
      cases hfind : (getLatestPricePerUrl tp).find? (fun p => p.1 = u) with
      | none => rw [hfind] at hlk; cases hlk
      | some q =>
          rw [hfind] at hlk
          simp only [Option.map_some', Option.some.injEq] at hlk
          have hq := List.mem_of_find?_eq_some hfind
          have hqu : q.1 = u := by
            have := List.find?_some hfind
            simpa using this
          refine ⟨q, hq, ?_⟩
          rw [hlk, if_pos hneed, hqu]
  · intro u e hlk
    unfold lookupLatest at hlk
    cases hfind : (getLatestPricePerUrl tp).find? (fun p => p.1 = u) with
    | none => rw [hfind] at hlk; cases hlk
    | some q =>
        rw [hfind] at hlk
        simp only [Option.map_some', Option.some.injEq] at hlk
        have hq := List.mem_of_find?_eq_some hfind
        have hqu : q.1 = u := by
          have := List.find?_some hfind
          simpa using this
        obtain ⟨h1, h2, h3, h4, h5⟩ := hpairs q hq
        subst hlk
        refine ⟨h4, by rw [h1, hqu], by rw [← hqu]; exact h2, h3, ?_⟩
        intro e2 he2 hu hpr
        exact h5 e2 he2 (by rw [hu, ← hqu]) hpr
  · intro e he hu hpr
    have hk := hcov e he hu hpr
    obtain ⟨p, hp, hpe⟩ := List.mem_map.mp hk
    refine ⟨p.2, ?_⟩
    unfold lookupLatest
    rw [find?_key_some hnd hp hpe]
    rfl

theorem claim_C4_witness :
    (⟨"u", "€5,00", 5, none⟩ : SchedEntry) ∈
      [(⟨"u", "€5,00", 5, none⟩ : SchedEntry)] :=
  ((claim_C4 [⟨"u", "€5,00", 5, none⟩] 1 0).2.2.1 "u" ⟨"u", "€5,00", 5, none⟩ rfl).1

end PriceTracker
